import Mathlib

/-!
Shallow embedding of the case-conversion engine of this repository.

Strings are modelled as `List Char`; JavaScript runtime values relevant to
the converters' input validation are modelled by `JSValue`.  The regex
character classes used by the source (`[a-z]`, `[A-Z]`, `[0-9]`, `\s`,
`[_\-]`, `[-_\s]`) are modelled numerically over ASCII code points, the
scope the specification fixes for the engine.

Embedded source files:
  * `toKebabCase`            from `src/chain_prompt.js`
  * `camelCase` and `dotCase` from `src/refined_promot.js`
  * `toCamelCase`            from `src/refined_promot.js` (empty body)
-/

namespace CaseConv

/-- The regex class `[a-z]` (ASCII codes 97..122). -/
def isLowerC (c : Char) : Bool := 97 ≤ c.toNat && c.toNat ≤ 122

/-- The regex class `[A-Z]` (ASCII codes 65..90). -/
def isUpperC (c : Char) : Bool := 65 ≤ c.toNat && c.toNat ≤ 90

/-- The regex class `[0-9]` (ASCII codes 48..57). -/
def isDigitC (c : Char) : Bool := 48 ≤ c.toNat && c.toNat ≤ 57

/-- The regex class `[a-zA-Z0-9]`. -/
def isAlnumC (c : Char) : Bool := isLowerC c || isUpperC c || isDigitC c

/-- The regex class `\s`, restricted to its ASCII members
(space, tab, line feed, carriage return, vertical tab, form feed). -/
def isWSC (c : Char) : Bool :=
  c.toNat = 32 || c.toNat = 9 || c.toNat = 10 || c.toNat = 13 ||
  c.toNat = 11 || c.toNat = 12

/-- The regex class `[_\-]` (underscore, hyphen). -/
def isUHC (c : Char) : Bool := c.toNat = 95 || c.toNat = 45

/-- The regex class `[-_\s]` (hyphen, underscore, whitespace). -/
def isSepC (c : Char) : Bool := isUHC c || isWSC c

/-- JavaScript `toLowerCase` restricted to ASCII letters: an uppercase
ASCII letter moves down 32 code points, every other character is fixed. -/
def jsToLower (c : Char) : Char :=
  if isUpperC c then Char.ofNat (c.toNat + 32) else c

/-- JavaScript `toUpperCase` restricted to ASCII letters. -/
def jsToUpper (c : Char) : Char :=
  if isLowerC c then Char.ofNat (c.toNat - 32) else c

/-- `replace(/([a-z])([A-Z])/g, "$1 $2")`: insert a space between each
adjacent pair consisting of a lowercase letter followed by an uppercase
letter.  The global regex consumes two characters per match, but a
consumed pair can never hide a further match (the second character of a
match is uppercase and so can never open another match), so the pass is
equivalent to this pairwise insertion. -/
def camelBoundary : List Char → List Char
  | [] => []
  | [c] => [c]
  | a :: b :: rest =>
    if isLowerC a && isUpperC b then a :: ' ' :: camelBoundary (b :: rest)
    else a :: camelBoundary (b :: rest)

/-- Worker for `collapseRuns`: the flag records whether the scanner is
inside a run of `p`-characters (a run emits a single space). -/
def collapseRunsAux (p : Char → Bool) : Bool → List Char → List Char
  | _, [] => []
  | inRun, c :: rest =>
    if p c then
      if inRun then collapseRunsAux p true rest
      else ' ' :: collapseRunsAux p true rest
    else c :: collapseRunsAux p false rest

/-- `replace(/X+/g, " ")` for a character class `X`: every maximal run of
`X`-characters becomes one space. -/
def collapseRuns (p : Char → Bool) (s : List Char) : List Char :=
  collapseRunsAux p false s

/-- Worker for `splitRuns`: JavaScript `split` on a regex matching runs of
`p`-characters.  The flag records whether the scanner is inside a
separator run; `acc` holds the current field, reversed. -/
def splitRunsAux (p : Char → Bool) : Bool → List Char → List Char → List (List Char)
  | _, acc, [] => [acc.reverse]
  | inRun, acc, c :: rest =>
    if p c then
      if inRun then splitRunsAux p true [] rest
      else acc.reverse :: splitRunsAux p true [] rest
    else splitRunsAux p false (c :: acc) rest

/-- JavaScript `String.prototype.split` on a regex matching maximal runs
of `p`-characters: leading and trailing runs contribute empty fields,
exactly as in JavaScript (`"  ".split(/\s+/)` gives two empty strings). -/
def splitRuns (p : Char → Bool) (s : List Char) : List (List Char) :=
  splitRunsAux p false [] s

/-- JavaScript `String.prototype.trim` (ASCII whitespace). -/
def jsTrim (s : List Char) : List Char :=
  ((s.dropWhile isWSC).reverse.dropWhile isWSC).reverse

/-- JavaScript `Array.prototype.join` with separator `sep`. -/
def joinWith (sep : List Char) : List (List Char) → List Char
  | [] => []
  | [w] => w
  | w :: ws => w ++ sep ++ joinWith sep ws

/-- `c == '-'`, the character matched by `/^-+|-+$/`. -/
def isHyphenC (c : Char) : Bool := c.toNat = 45

/-- `replace(/^-+|-+$/g, "")`: drop the maximal leading and trailing
runs of hyphens. -/
def dropEdgeHyphens (s : List Char) : List Char :=
  ((s.dropWhile isHyphenC).reverse.dropWhile isHyphenC).reverse

/-- JavaScript `Array.prototype.map` with the element index as second
callback argument, as in `arr.map((word, index) => ...)`. -/
def mapWithIndex (f : Nat → List Char → List Char) : Nat → List (List Char) → List (List Char)
  | _, [] => []
  | i, w :: ws => f i w :: mapWithIndex f (i + 1) ws

/-- JavaScript runtime values relevant to the converters' input guards
(`input == null`, `typeof input !== "string"`, truthiness of strings). -/
inductive JSValue where
  | vstr (s : List Char)
  | vnull
  | vundefined
  | vnum (n : Int)
  | vbool (b : Bool)
deriving DecidableEq

/-- `true` exactly on string values, as `typeof v === "string"`. -/
def isStringV : JSValue → Bool
  | .vstr _ => true
  | _ => false

/-- Body of `toKebabCase` from `src/chain_prompt.js` on string input:
camelCase boundary insertion, `[_\-]+` to space, split on `\s+`,
lowercase each word, drop empty words, join with `-`, trim edge hyphens. -/
def toKebabCaseStr (text : List Char) : List Char :=
  let words := splitRuns isWSC (collapseRuns isUHC (camelBoundary text))
  let words2 := words.map (fun w => w.map jsToLower)
  dropEdgeHyphens (joinWith ['-'] (words2.filter (fun w => w ≠ [])))

/-- `toKebabCase` from `src/chain_prompt.js`: non-strings and the empty
string (falsy) return the empty string. -/
def toKebabCase : JSValue → List Char
  | .vstr s => if s = [] then [] else toKebabCaseStr s
  | _ => []

/-- The per-word callback of `camelCase` from `src/refined_promot.js`:
strip non-alphanumeric characters; an empty remainder yields the empty
string; the word at index 0 has its first character lowercased and the
remainder preserved; every later word has its first character uppercased
and the remainder lowercased. -/
def camelWordAt (i : Nat) (w : List Char) : List Char :=
  match w.filter isAlnumC with
  | [] => []
  | c :: t => if i = 0 then jsToLower c :: t else jsToUpper c :: t.map jsToLower

/-- Body of `camelCase` from `src/refined_promot.js` on string input:
trim; empty check; collapse `[-_\s]+` runs to one space; trim; split on
`[-_\s]+`; drop empty words; empty check; per-word processing by index;
drop empty processed words; join with the empty separator. -/
def camelCaseStr (input : List Char) : List Char :=
  let trimmed := jsTrim input
  if trimmed = [] then []
  else
    let t2 := jsTrim (collapseRuns isSepC trimmed)
    let filteredWords := (splitRuns isSepC t2).filter (fun w => w ≠ [])
    if filteredWords = [] then []
    else joinWith [] ((mapWithIndex camelWordAt 0 filteredWords).filter (fun w => w ≠ []))

/-- `camelCase` from `src/refined_promot.js`: `null`, `undefined` and
non-string values return the empty string. -/
def camelCase : JSValue → List Char
  | .vstr s => camelCaseStr s
  | _ => []

/-- Body of `dotCase` from `src/refined_promot.js` on string input: the
same tokenization as `camelCase`, then each word is cleaned to its
alphanumeric characters and lowercased, empty words are dropped, and the
words are joined with `.`. -/
def dotCaseStr (input : List Char) : List Char :=
  let trimmed := jsTrim input
  if trimmed = [] then []
  else
    let t2 := jsTrim (collapseRuns isSepC trimmed)
    let filteredWords := (splitRuns isSepC t2).filter (fun w => w ≠ [])
    if filteredWords = [] then []
    else
      let processed := filteredWords.map (fun w => (w.filter isAlnumC).map jsToLower)
      joinWith ['.'] (processed.filter (fun w => w ≠ []))

/-- `dotCase` from `src/refined_promot.js`: `null`, `undefined` and
non-string values return the empty string. -/
def dotCase : JSValue → List Char
  | .vstr s => dotCaseStr s
  | _ => []

/-- `toCamelCase` from `src/refined_promot.js`: the function body is
empty (`// Implementation here`), so every call returns `undefined`. -/
def toCamelCase (_str : JSValue) : JSValue := JSValue.vundefined

/-- The enumerated set of style names of the specification's
`CaseStyle`. -/
def styleNames : List String := ["kebab", "camel", "pascal", "snake", "dot"]

/-- Per-word capitalization used by the spec's `pascal` style and by the
non-initial words of its `camel` style: first character uppercased, the
remainder lowercased. -/
def specCapWord : List Char → List Char
  | [] => []
  | c :: t => jsToUpper c :: t.map jsToLower

/-- Per-word rule of the spec's `camel` style: the first word is
lowercased in full, every later word is capitalized. -/
def specCamelWord (i : Nat) (w : List Char) : List Char :=
  if i = 0 then w.map jsToLower else specCapWord w

/-- Modelled from the spec: the repository contains no
`format(words, style)` dispatch entry point (the spec's CaseFormatter);
only three free-standing converters exist.  Following the spec's words:
each style in the enumerated set `{kebab, camel, pascal, snake, dot}` is
a pure mapping from the token sequence to a string, and an unrecognized
style name is rejected with an explicit invalid-argument failure instead
of a silent fallback. -/
def formatWords (words : List (List Char)) (style : String) : Except String (List Char) :=
  if style = "kebab" then .ok (joinWith ['-'] (words.map (fun w => w.map jsToLower)))
  else if style = "camel" then .ok (joinWith [] (mapWithIndex specCamelWord 0 words))
  else if style = "pascal" then .ok (joinWith [] (words.map specCapWord))
  else if style = "snake" then .ok (joinWith ['_'] (words.map (fun w => w.map jsToLower)))
  else if style = "dot" then .ok (joinWith ['.'] (words.map (fun w => w.map jsToLower)))
  else .error "Invalid case style"

/-- The character list of a string literal. -/
def strL (s : String) : List Char := s.data

/-! ### Character-level facts -/

theorem toNat_ofNat_valid {n : Nat} (h : n < 55296) : (Char.ofNat n).toNat = n := by
  simp [Char.ofNat, Nat.isValidChar, Char.ofNatAux, Char.toNat, UInt32.toNat, UInt32.ofNat', h]

theorem isUpperC_iff {c : Char} : isUpperC c = true ↔ 65 ≤ c.toNat ∧ c.toNat ≤ 90 := by
  simp [isUpperC, Bool.and_eq_true]

theorem isLowerC_iff {c : Char} : isLowerC c = true ↔ 97 ≤ c.toNat ∧ c.toNat ≤ 122 := by
  simp [isLowerC, Bool.and_eq_true]

theorem isSepC_iff {c : Char} : isSepC c = true ↔
    c.toNat = 95 ∨ c.toNat = 45 ∨ c.toNat = 32 ∨ c.toNat = 9 ∨ c.toNat = 10 ∨
    c.toNat = 13 ∨ c.toNat = 11 ∨ c.toNat = 12 := by
  simp [isSepC, isUHC, isWSC, Bool.or_eq_true]
  tauto

theorem isWSC_isSepC {c : Char} (h : isWSC c = true) : isSepC c = true := by
  simp [isSepC, h]

theorem isSepC_not_upper {c : Char} (h : isSepC c = true) : isUpperC c = false := by
  rw [Bool.eq_false_iff]; intro hc
  rw [isSepC_iff] at h; rw [isUpperC_iff] at hc; omega

theorem isSepC_not_lower {c : Char} (h : isSepC c = true) : isLowerC c = false := by
  rw [Bool.eq_false_iff]; intro hc
  rw [isSepC_iff] at h; rw [isLowerC_iff] at hc; omega

theorem isLowerC_not_sep {c : Char} (h : isLowerC c = true) : isSepC c = false := by
  rw [Bool.eq_false_iff]; intro hc
  rw [isSepC_iff] at hc; rw [isLowerC_iff] at h; omega

theorem isUpperC_not_sep {c : Char} (h : isUpperC c = true) : isSepC c = false := by
  rw [Bool.eq_false_iff]; intro hc
  rw [isSepC_iff] at hc; rw [isUpperC_iff] at h; omega

theorem isLowerC_not_upper {c : Char} (h : isLowerC c = true) : isUpperC c = false := by
  rw [Bool.eq_false_iff]; intro hc
  rw [isUpperC_iff] at hc; rw [isLowerC_iff] at h; omega

theorem isLowerC_alnum {c : Char} (h : isLowerC c = true) : isAlnumC c = true := by
  simp [isAlnumC, h]

theorem isUpperC_alnum {c : Char} (h : isUpperC c = true) : isAlnumC c = true := by
  simp [isAlnumC, h]

theorem isSepC_not_hyphen {c : Char} (h : isSepC c = false) : isHyphenC c = false := by
  rw [Bool.eq_false_iff]; intro hc
  rw [Bool.eq_false_iff] at h; apply h
  rw [isSepC_iff]; simp [isHyphenC] at hc; tauto

theorem jsToLower_of_not_upper {c : Char} (h : isUpperC c = false) : jsToLower c = c := by
  rw [jsToLower, if_neg]; simp [h]

theorem jsToLower_toNat_of_upper {c : Char} (h : isUpperC c = true) :
    (jsToLower c).toNat = c.toNat + 32 := by
  have hb := isUpperC_iff.mp h
  rw [jsToLower, if_pos h, toNat_ofNat_valid (by omega)]

theorem isUpperC_jsToLower (c : Char) : isUpperC (jsToLower c) = false := by
  cases h : isUpperC c with
  | false => rw [jsToLower_of_not_upper h]; exact h
  | true =>
    have hb := isUpperC_iff.mp h
    rw [Bool.eq_false_iff]; intro hc
    rw [isUpperC_iff, jsToLower_toNat_of_upper h] at hc; omega

theorem isSepC_jsToLower {c : Char} (h : isSepC c = false) : isSepC (jsToLower c) = false := by
  cases hu : isUpperC c with
  | false => rw [jsToLower_of_not_upper hu]; exact h
  | true =>
    have hb := isUpperC_iff.mp hu
    rw [Bool.eq_false_iff]; intro hc
    rw [isSepC_iff, jsToLower_toNat_of_upper hu] at hc; omega

theorem jsToLower_idem (c : Char) : jsToLower (jsToLower c) = jsToLower c :=
  jsToLower_of_not_upper (isUpperC_jsToLower c)

theorem jsToLower_of_lower {c : Char} (h : isLowerC c = true) : jsToLower c = c :=
  jsToLower_of_not_upper (isLowerC_not_upper h)

/-- A map whose function fixes every element of the list is the identity. -/
theorem map_id_of_fix {α : Type} {f : α → α} : ∀ l : List α, (∀ a ∈ l, f a = a) → l.map f = l := by
  intro l; induction l with
  | nil => intro _; rfl
  | cons a t ih =>
    intro h
    simp only [List.map_cons, h a (by simp), ih (fun b hb => h b (by simp [hb]))]

/-! ### Chunk decomposition

`chunksOf p s` is the list of maximal runs of non-`p` characters of `s`.
It is what the source's split-then-drop-empties pipelines compute, and
the invariant object of most proofs below. -/

/-- Worker: `acc` holds the currently scanned word, reversed; empty
words are never emitted. -/
def chunksAux (p : Char → Bool) : List Char → List Char → List (List Char)
  | acc, [] => if acc = [] then [] else [acc.reverse]
  | acc, c :: rest =>
    if p c then
      if acc = [] then chunksAux p [] rest else acc.reverse :: chunksAux p [] rest
    else chunksAux p (c :: acc) rest

/-- The maximal runs of non-`p` characters of `s`, in order. -/
def chunksOf (p : Char → Bool) (s : List Char) : List (List Char) :=
  chunksAux p [] s

/-- Splitting on separator runs and then dropping the empty fields is
the chunk decomposition. -/
theorem splitRunsAux_filter (p : Char → Bool) : ∀ s : List Char,
    (∀ acc, (splitRunsAux p false acc s).filter (fun w => w ≠ []) = chunksAux p acc s) ∧
    ((splitRunsAux p true [] s).filter (fun w => w ≠ []) = chunksAux p [] s) := by
  intro s; induction s with
  | nil =>
    constructor
    · intro acc
      by_cases h : acc = [] <;> simp [splitRunsAux, chunksAux, h]
    · simp [splitRunsAux, chunksAux]
  | cons c rest ih =>
    have ih1 : ∀ acc, (splitRunsAux p false acc rest).filter (fun w => !decide (w = [])) =
        chunksAux p acc rest := by
      intro acc; simpa using ih.1 acc
    have ih2 : (splitRunsAux p true [] rest).filter (fun w => !decide (w = [])) =
        chunksAux p [] rest := by
      simpa using ih.2
    constructor
    · intro acc
      by_cases hp : p c
      · by_cases h : acc = [] <;>
          simp [splitRunsAux, chunksAux, hp, h, ih2]
      · simp [splitRunsAux, chunksAux, hp, ih1]
    · by_cases hp : p c
      · simp [splitRunsAux, chunksAux, hp, ih2]
      · simp [splitRunsAux, chunksAux, hp, ih1]

theorem splitRuns_filter_eq (p : Char → Bool) (s : List Char) :
    (splitRuns p s).filter (fun w => w ≠ []) = chunksOf p s :=
  (splitRunsAux_filter p s).1 []

/-- Every chunk is non-empty. -/
theorem chunksAux_ne_nil (p : Char → Bool) :
    ∀ (s : List Char) (acc : List Char), ∀ w ∈ chunksAux p acc s, w ≠ [] := by
  intro s; induction s with
  | nil =>
    intro acc w hw
    by_cases h : acc = [] <;> simp [chunksAux, h] at hw
    subst hw; simpa using h
  | cons c rest ih =>
    intro acc w hw
    by_cases hp : p c
    · by_cases h : acc = []
      · rw [chunksAux, if_pos hp, if_pos h] at hw; exact ih [] w hw
      · rw [chunksAux, if_pos hp, if_neg h] at hw
        rcases List.mem_cons.mp hw with h1 | h1
        · subst h1; simpa using h
        · exact ih [] w h1
    · rw [chunksAux, if_neg hp] at hw; exact ih (c :: acc) w hw

theorem chunksOf_ne_nil (p : Char → Bool) (s : List Char) : ∀ w ∈ chunksOf p s, w ≠ [] :=
  chunksAux_ne_nil p s []

/-- Characters of a chunk never satisfy the separator predicate. -/
theorem chunksAux_chars (p : Char → Bool) :
    ∀ (s : List Char) (acc : List Char), (∀ c ∈ acc, p c = false) →
      ∀ w ∈ chunksAux p acc s, ∀ c ∈ w, p c = false := by
  intro s; induction s with
  | nil =>
    intro acc hacc w hw c hc
    by_cases h : acc = [] <;> simp [chunksAux, h] at hw
    subst hw; exact hacc c (List.mem_reverse.mp hc)
  | cons x rest ih =>
    intro acc hacc w hw c hc
    by_cases hp : p x
    · by_cases h : acc = []
      · rw [chunksAux, if_pos hp, if_pos h] at hw
        exact ih [] (by simp) w hw c hc
      · rw [chunksAux, if_pos hp, if_neg h] at hw
        rcases List.mem_cons.mp hw with h1 | h1
        · subst h1; exact hacc c (List.mem_reverse.mp hc)
        · exact ih [] (by simp) w h1 c hc
    · rw [chunksAux, if_neg hp] at hw
      refine ih (x :: acc) ?_ w hw c hc
      intro d hd
      rcases List.mem_cons.mp hd with h1 | h1
      · subst h1; simpa using hp
      · exact hacc d h1

theorem chunksOf_chars (p : Char → Bool) (s : List Char) :
    ∀ w ∈ chunksOf p s, ∀ c ∈ w, p c = false :=
  chunksAux_chars p s [] (by simp)

/-- Collapsing runs of `q`-characters to single spaces and then chunking
by `p` is chunking by `r`, whenever `q`-characters are `r`-separators,
`p` and `r` agree away from `q`, and the space is a `p`-separator. -/
theorem chunksAux_collapse (p q r : Char → Bool)
    (H1 : ∀ c, q c = true → r c = true)
    (H2 : ∀ c, q c = false → p c = r c)
    (H3 : p ' ' = true) : ∀ s : List Char,
    (∀ acc, chunksAux p acc (collapseRunsAux q false s) = chunksAux r acc s) ∧
    (chunksAux p [] (collapseRunsAux q true s) = chunksAux r [] s) := by
  intro s; induction s with
  | nil => exact ⟨fun acc => rfl, rfl⟩
  | cons c rest ih =>
    constructor
    · intro acc
      by_cases hq : q c
      · have e1 : collapseRunsAux q false (c :: rest) = ' ' :: collapseRunsAux q true rest := by
          rw [collapseRunsAux, if_pos hq, if_neg (by simp)]
        rw [e1, chunksAux, if_pos H3, chunksAux, if_pos (H1 c hq), ih.2]
      · have hq' : q c = false := by revert hq; cases q c <;> simp
        have e1 : collapseRunsAux q false (c :: rest) = c :: collapseRunsAux q false rest := by
          rw [collapseRunsAux, if_neg (by simp [hq'])]
        have hpr := H2 c hq'
        cases hp : p c with
        | true =>
          have hr : r c = true := by rw [← hpr]; exact hp
          rw [e1, chunksAux, if_pos hp, chunksAux, if_pos hr]
          by_cases h : acc = [] <;> simp [h, ih.1]
        | false =>
          have hr : r c = false := by rw [← hpr]; exact hp
          rw [e1, chunksAux, if_neg (by simp [hp]), chunksAux, if_neg (by simp [hr])]
          exact ih.1 (c :: acc)
    · by_cases hq : q c
      · have e1 : collapseRunsAux q true (c :: rest) = collapseRunsAux q true rest := by
          rw [collapseRunsAux, if_pos hq, if_pos rfl]
        have e2 : chunksAux r [] (c :: rest) = chunksAux r [] rest := by
          rw [chunksAux, if_pos (H1 c hq), if_pos rfl]
        rw [e1, e2]; exact ih.2
      · have hq' : q c = false := by revert hq; cases q c <;> simp
        have e1 : collapseRunsAux q true (c :: rest) = c :: collapseRunsAux q false rest := by
          rw [collapseRunsAux, if_neg (by simp [hq'])]
        have hpr := H2 c hq'
        cases hp : p c with
        | true =>
          have hr : r c = true := by rw [← hpr]; exact hp
          rw [e1, chunksAux, if_pos hp, if_pos rfl, chunksAux, if_pos hr, if_pos rfl]
          exact ih.1 []
        | false =>
          have hr : r c = false := by rw [← hpr]; exact hp
          rw [e1, chunksAux, if_neg (by simp [hp]), chunksAux, if_neg (by simp [hr])]
          exact ih.1 [c]

/-- Chunking an all-separator string emits only the pending word. -/
theorem chunksAux_all_p (p : Char → Bool) :
    ∀ t : List Char, (∀ c ∈ t, p c = true) →
      ∀ acc, chunksAux p acc t = if acc = [] then [] else [acc.reverse] := by
  intro t; induction t with
  | nil => intro _ acc; rfl
  | cons c t' ih =>
    intro ht acc
    have ht' : ∀ d ∈ t', p d = true := fun d hd => ht d (List.mem_cons_of_mem _ hd)
    have hnil : chunksAux p [] t' = [] := by rw [ih ht' []]; rfl
    rw [chunksAux, if_pos (ht c (by simp))]
    by_cases h : acc = []
    · rw [if_pos h, if_pos h, hnil]
    · rw [if_neg h, if_neg h, hnil]

/-- Chunking ignores an all-separator suffix. -/
theorem chunksAux_append_allp (p : Char → Bool) {t : List Char} (ht : ∀ c ∈ t, p c = true) :
    ∀ (s : List Char) (acc : List Char), chunksAux p acc (s ++ t) = chunksAux p acc s := by
  intro s; induction s with
  | nil =>
    intro acc
    rw [List.nil_append, chunksAux_all_p p t ht acc]
    by_cases h : acc = [] <;> simp [chunksAux, h]
  | cons c rest ih =>
    intro acc
    rw [List.cons_append]
    by_cases hp : p c
    · rw [chunksAux, if_pos hp, chunksAux, if_pos hp]
      by_cases h : acc = [] <;> simp [h, ih]
    · rw [chunksAux, if_neg (by simp [hp]), chunksAux, if_neg (by simp [hp])]
      exact ih (c :: acc)

/-- With no pending word, chunking skips a leading all-separator run. -/
theorem chunksAux_skip_run (p : Char → Bool) :
    ∀ rs : List Char, (∀ c ∈ rs, p c = true) →
      ∀ v, chunksAux p [] (rs ++ v) = chunksAux p [] v := by
  intro rs; induction rs with
  | nil => intro _ v; rfl
  | cons x rs' ih =>
    intro h v
    rw [List.cons_append, chunksAux, if_pos (h x (by simp)), if_pos rfl]
    exact ih (fun d hd => h d (List.mem_cons_of_mem _ hd)) v

/-- Scanning a separator-free word pushes it onto the accumulator. -/
theorem chunksAux_word (p : Char → Bool) :
    ∀ w : List Char, (∀ c ∈ w, p c = false) →
      ∀ acc rest, chunksAux p acc (w ++ rest) = chunksAux p (w.reverse ++ acc) rest := by
  intro w; induction w with
  | nil => intro _ acc rest; rfl
  | cons c w' ih =>
    intro h acc rest
    rw [List.cons_append, chunksAux, if_neg (by simp [h c (by simp)])]
    rw [ih (fun d hd => h d (List.mem_cons_of_mem _ hd)) (c :: acc) rest]
    rw [List.reverse_cons, List.append_assoc, List.singleton_append]

/-- Replacing a non-empty separator run by any single separator character
does not change the chunk decomposition. -/
theorem chunksAux_run_replace (p : Char → Bool) {rs : List Char} {c : Char}
    (hne : rs ≠ []) (hrs : ∀ x ∈ rs, p x = true) (hc : p c = true) :
    ∀ (u v : List Char) (acc : List Char),
      chunksAux p acc (u ++ rs ++ v) = chunksAux p acc (u ++ c :: v) := by
  intro u; induction u with
  | nil =>
    intro v acc
    rw [List.nil_append, List.nil_append]
    match rs, hne with
    | x :: rs', _ =>
      rw [List.cons_append, chunksAux, if_pos (hrs x (by simp)), chunksAux, if_pos hc]
      have hskip : chunksAux p [] (rs' ++ v) = chunksAux p [] v :=
        chunksAux_skip_run p rs' (fun d hd => hrs d (List.mem_cons_of_mem _ hd)) v
      by_cases h : acc = [] <;> simp [h, hskip]
  | cons a u' ih =>
    intro v acc
    rw [List.cons_append, List.cons_append, List.cons_append]
    by_cases hp : p a
    · rw [chunksAux, if_pos hp, chunksAux, if_pos hp]
      have h2 : chunksAux p [] (u' ++ (rs ++ v)) = chunksAux p [] (u' ++ c :: v) := by
        rw [← List.append_assoc]; exact ih v []
      by_cases h : acc = [] <;> simp [h, h2]
    · rw [chunksAux, if_neg (by simp [hp]), chunksAux, if_neg (by simp [hp])]
      have := ih v (a :: acc)
      rw [List.append_assoc] at this ⊢
      exact this

/-- Chunking ignores leading JavaScript whitespace whenever whitespace is
a separator. -/
theorem chunksOf_dropWhileWS (p : Char → Bool) (hws : ∀ c, isWSC c = true → p c = true) :
    ∀ s, chunksOf p (List.dropWhile isWSC s) = chunksOf p s := by
  intro s; induction s with
  | nil => rfl
  | cons c rest ih =>
    by_cases h : isWSC c
    · rw [List.dropWhile_cons, if_pos (by simp [h]), ih]
      show chunksAux p [] rest = chunksAux p [] (c :: rest)
      rw [chunksAux, if_pos (hws c h), if_pos rfl]
    · rw [List.dropWhile_cons, if_neg (by simp [h])]

/-- Chunking is invariant under JavaScript `trim` whenever whitespace is
a separator. -/
theorem chunksOf_jsTrim (p : Char → Bool) (hws : ∀ c, isWSC c = true → p c = true)
    (s : List Char) : chunksOf p (jsTrim s) = chunksOf p s := by
  rw [← chunksOf_dropWhileWS p hws s]
  set u := List.dropWhile isWSC s with hu
  have decomp : u = (u.reverse.dropWhile isWSC).reverse ++ (u.reverse.takeWhile isWSC).reverse := by
    conv_lhs => rw [← List.reverse_reverse u,
      ← List.takeWhile_append_dropWhile isWSC u.reverse]
    rw [List.reverse_append]
  have htail : ∀ c ∈ (u.reverse.takeWhile isWSC).reverse, p c = true := by
    intro c hc
    exact hws c (List.mem_takeWhile_imp (List.mem_reverse.mp hc))
  rw [jsTrim, ← hu]
  conv_rhs => rw [decomp]
  rw [chunksOf, chunksOf, chunksAux_append_allp p htail]

/-- An input that trims to nothing has no chunks, whenever whitespace is
a separator. -/
theorem chunksOf_nil_of_trim_nil (p : Char → Bool) (hws : ∀ c, isWSC c = true → p c = true)
    {s : List Char} (h : jsTrim s = []) : chunksOf p s = [] := by
  rw [← chunksOf_jsTrim p hws s, h]; rfl

/-! ### Facts about the case-boundary pass -/

theorem camelBoundary_cons_not_lower {x : Char} (hx : isLowerC x = false) :
    ∀ L, camelBoundary (x :: L) = x :: camelBoundary L := by
  intro L; cases L with
  | nil => rfl
  | cons y L' => rw [camelBoundary, if_neg (by simp [hx])]

theorem camelBoundary_cons_cons_not_upper {x y : Char} (hy : isUpperC y = false) (L : List Char) :
    camelBoundary (x :: y :: L) = x :: camelBoundary (y :: L) := by
  rw [camelBoundary, if_neg (by simp [hy])]

/-- A string whose non-initial characters are never uppercase has no
case boundary. -/
theorem camelBoundary_of_tail_not_upper :
    ∀ s : List Char, (∀ c ∈ s.tail, isUpperC c = false) → camelBoundary s = s := by
  intro s; induction s with
  | nil => intro _; rfl
  | cons a t ih =>
    intro h
    cases t with
    | nil => rfl
    | cons b r =>
      rw [camelBoundary_cons_cons_not_upper (h b (by simp)) r]
      rw [ih (fun c hc => h c (List.mem_cons_of_mem _ (by simpa using hc)))]

theorem camelBoundary_of_not_upper {s : List Char} (h : ∀ c ∈ s, isUpperC c = false) :
    camelBoundary s = s :=
  camelBoundary_of_tail_not_upper s (fun c hc => h c (List.mem_of_mem_tail hc))

/-- A string with no lowercase character has no case boundary. -/
theorem camelBoundary_of_no_lower :
    ∀ s : List Char, (∀ c ∈ s, isLowerC c = false) → camelBoundary s = s := by
  intro s; induction s with
  | nil => intro _; rfl
  | cons a t ih =>
    intro h
    rw [camelBoundary_cons_not_lower (h a (by simp)) t]
    rw [ih (fun c hc => h c (List.mem_cons_of_mem _ hc))]

/-- The case-boundary pass passes over a leading all-separator run. -/
theorem camelBoundary_sep_head :
    ∀ rs : List Char, (∀ c ∈ rs, isSepC c = true) →
      ∀ v, camelBoundary (rs ++ v) = rs ++ camelBoundary v := by
  intro rs; induction rs with
  | nil => intro _ v; rfl
  | cons x rs' ih =>
    intro h v
    rw [List.cons_append,
        camelBoundary_cons_not_lower (isSepC_not_lower (h x (by simp))),
        ih (fun d hd => h d (List.mem_cons_of_mem _ hd)) v, List.cons_append]

/-- The case-boundary pass distributes over a non-empty separator run:
no boundary can form across or inside the run. -/
theorem camelBoundary_sep_append {rs : List Char} (hne : rs ≠ [])
    (hsep : ∀ c ∈ rs, isSepC c = true) :
    ∀ u v, camelBoundary (u ++ rs ++ v) = camelBoundary u ++ rs ++ camelBoundary v := by
  intro u; induction u with
  | nil =>
    intro v
    rw [List.nil_append, camelBoundary_sep_head rs hsep v, camelBoundary, List.nil_append]
  | cons a u' ih =>
    intro v
    cases u' with
    | nil =>
      match rs, hne with
      | x :: rs', _ =>
        have hx : isUpperC x = false := isSepC_not_upper (hsep x (by simp))
        show camelBoundary (a :: ((x :: rs') ++ v)) =
          camelBoundary [a] ++ (x :: rs') ++ camelBoundary v
        rw [List.cons_append, camelBoundary_cons_cons_not_upper hx (rs' ++ v),
            ← List.cons_append, camelBoundary_sep_head (x :: rs') hsep v]
        simp [camelBoundary]
    | cons b u'' =>
      have hstep : camelBoundary (b :: (u'' ++ rs ++ v)) =
          camelBoundary (b :: u'') ++ rs ++ camelBoundary v := ih v
      show camelBoundary (a :: b :: (u'' ++ rs ++ v)) =
        camelBoundary (a :: b :: u'') ++ rs ++ camelBoundary v
      by_cases hcond : (isLowerC a && isUpperC b) = true
      · rw [camelBoundary, if_pos hcond, hstep,
            show camelBoundary (a :: b :: u'') = a :: ' ' :: camelBoundary (b :: u'') from by
              rw [camelBoundary, if_pos hcond]]
        simp
      · rw [camelBoundary, if_neg hcond, hstep,
            show camelBoundary (a :: b :: u'') = a :: camelBoundary (b :: u'') from by
              rw [camelBoundary, if_neg hcond]]
        simp

/-- A maximal lowercase run followed by an uppercase letter receives
exactly one inserted boundary, before the uppercase letter. -/
theorem camelBoundary_lower_upper :
    ∀ u : List Char, u ≠ [] → (∀ c ∈ u, isLowerC c = true) →
      ∀ b t, isUpperC b = true → (∀ c ∈ t, isUpperC c = false) →
        camelBoundary (u ++ b :: t) = u ++ ' ' :: b :: t := by
  intro u; induction u with
  | nil => intro h; exact absurd rfl h
  | cons a u' ih =>
    intro _ hu b t hb ht
    cases u' with
    | nil =>
      rw [List.singleton_append, camelBoundary,
          if_pos (by simp [hu a (by simp), hb]),
          camelBoundary_of_tail_not_upper (b :: t) (by simpa using ht)]
      rfl
    | cons a' u'' =>
      have ha' : isUpperC a' = false := isLowerC_not_upper (hu a' (by simp))
      rw [show (a :: a' :: u'') ++ b :: t = a :: a' :: (u'' ++ b :: t) from by simp,
          camelBoundary_cons_cons_not_upper ha']
      rw [show a' :: (u'' ++ b :: t) = (a' :: u'') ++ b :: t from by simp]
      rw [ih (by simp) (fun c hc => hu c (List.mem_cons_of_mem _ hc)) b t hb ht]
      simp

/-! ### Facts about joining and edge-hyphen trimming -/

theorem joinWith_cons_of_ne (sep : List Char) (w : List Char) {L : List (List Char)}
    (hL : L ≠ []) : joinWith sep (w :: L) = w ++ sep ++ joinWith sep L := by
  match L, hL with
  | x :: L', _ => rfl

theorem joinWith_nil_sep_cons (w : List Char) (L : List (List Char)) :
    joinWith [] (w :: L) = w ++ joinWith [] L := by
  cases L with
  | nil => rw [joinWith, joinWith]; simp
  | cons x L' => rw [joinWith_cons_of_ne [] w (by simp)]; simp

theorem mem_joinWith (sep : List Char) :
    ∀ L : List (List Char), ∀ c ∈ joinWith sep L, c ∈ sep ∨ ∃ w ∈ L, c ∈ w := by
  intro L; induction L with
  | nil => intro c hc; simp [joinWith] at hc
  | cons w L' ih =>
    intro c hc
    cases L' with
    | nil =>
      rw [joinWith] at hc
      exact Or.inr ⟨w, by simp, hc⟩
    | cons x L'' =>
      rw [joinWith_cons_of_ne sep w (by simp)] at hc
      rcases List.mem_append.mp hc with h1 | h1
      · rcases List.mem_append.mp h1 with h2 | h2
        · exact Or.inr ⟨w, by simp, h2⟩
        · exact Or.inl h2
      · rcases ih c h1 with h2 | ⟨w', hw', hc'⟩
        · exact Or.inl h2
        · exact Or.inr ⟨w', List.mem_cons_of_mem _ hw', hc'⟩

theorem joinWith_append_singleton (sep : List Char) :
    ∀ (A : List (List Char)) (x : List Char), A ≠ [] →
      joinWith sep (A ++ [x]) = joinWith sep A ++ sep ++ x := by
  intro A; induction A with
  | nil => intro x h; exact absurd rfl h
  | cons a A' ih =>
    intro x _
    cases A' with
    | nil => rfl
    | cons b A'' =>
      rw [List.cons_append, joinWith_cons_of_ne sep a (by simp),
          joinWith_cons_of_ne sep a (by simp), ih x (by simp)]
      simp

/-- Reversing a join of words with a palindromic separator joins the
reversed words in reverse order. -/
theorem joinWith_reverse (sep : List Char) (hs : sep.reverse = sep) :
    ∀ L : List (List Char),
      (joinWith sep L).reverse = joinWith sep ((L.map List.reverse).reverse) := by
  intro L; induction L with
  | nil => rfl
  | cons w L' ih =>
    cases L' with
    | nil => rw [joinWith]; simp [joinWith]
    | cons x L'' =>
      rw [joinWith_cons_of_ne sep w (by simp)]
      rw [show ((w :: x :: L'').map List.reverse).reverse =
          ((x :: L'').map List.reverse).reverse ++ [w.reverse] from by simp]
      rw [joinWith_append_singleton sep _ w.reverse (by simp), ← ih]
      simp [hs]

/-- Dropping leading hyphens does nothing to a join of non-empty,
hyphen-free words. -/
theorem dropWhile_hyphen_joinWith :
    ∀ L : List (List Char), (∀ w ∈ L, w ≠ []) →
      (∀ w ∈ L, ∀ c ∈ w, isHyphenC c = false) →
      List.dropWhile isHyphenC (joinWith ['-'] L) = joinWith ['-'] L := by
  intro L
  cases L with
  | nil => intro _ _; rfl
  | cons w L' =>
    intro hne hh
    match w, hne w (by simp) with
    | c :: t, _ =>
      have hc : isHyphenC c = false := hh (c :: t) (by simp) c (by simp)
      cases L' with
      | nil =>
        rw [joinWith, List.dropWhile_cons, if_neg (by simp [hc])]
      | cons x L'' =>
        rw [joinWith_cons_of_ne ['-'] _ (by simp), List.cons_append, List.cons_append,
            List.dropWhile_cons, if_neg (by simp [hc])]

/-- Trimming edge hyphens does nothing to a join of non-empty,
hyphen-free words. -/
theorem dropEdgeHyphens_joinWith (L : List (List Char)) (hne : ∀ w ∈ L, w ≠ [])
    (hh : ∀ w ∈ L, ∀ c ∈ w, isHyphenC c = false) :
    dropEdgeHyphens (joinWith ['-'] L) = joinWith ['-'] L := by
  have hsep : (['-'] : List Char).reverse = ['-'] := rfl
  have hrevne : ∀ w ∈ (L.map List.reverse).reverse, w ≠ [] := by
    intro w hw
    rcases List.mem_map.mp (List.mem_reverse.mp hw) with ⟨w', hw', rfl⟩
    simpa using hne w' hw'
  have hrevh : ∀ w ∈ (L.map List.reverse).reverse, ∀ c ∈ w, isHyphenC c = false := by
    intro w hw c hc
    rcases List.mem_map.mp (List.mem_reverse.mp hw) with ⟨w', hw', rfl⟩
    exact hh w' hw' c (List.mem_reverse.mp hc)
  rw [dropEdgeHyphens, dropWhile_hyphen_joinWith L hne hh,
      joinWith_reverse ['-'] hsep L,
      dropWhile_hyphen_joinWith _ hrevne hrevh,
      ← joinWith_reverse ['-'] hsep L, List.reverse_reverse]

/-! ### Factored normal forms of the three converters -/

/-- The camelCase formatter applied directly to the chunk decomposition. -/
def camelFromChunks (ws : List (List Char)) : List Char :=
  joinWith [] ((mapWithIndex camelWordAt 0 ws).filter (fun w => w ≠ []))

/-- The dotCase formatter applied directly to the chunk decomposition. -/
def dotFromChunks (ws : List (List Char)) : List Char :=
  joinWith ['.'] ((ws.map (fun w => (w.filter isAlnumC).map jsToLower)).filter (fun w => w ≠ []))

/-- The kebab formatter applied directly to the chunk decomposition. -/
def kebabFromChunks (ws : List (List Char)) : List Char :=
  dropEdgeHyphens (joinWith ['-'] (ws.map (fun w => w.map jsToLower)))

theorem hws_sep : ∀ c, isWSC c = true → isSepC c = true := fun _ h => isWSC_isSepC h

/-- Collapsing separator runs leaves the separator chunks unchanged. -/
theorem chunksOf_collapse_sep (s : List Char) :
    chunksOf isSepC (collapseRuns isSepC s) = chunksOf isSepC s := by
  have h := chunksAux_collapse isSepC isSepC isSepC (fun c hc => hc)
    (fun c _ => rfl) (by decide) s
  exact h.1 []

/-- `camelCase` is its formatter applied to the chunk decomposition of
the input. -/
theorem camelCaseStr_eq (s : List Char) :
    camelCaseStr s = camelFromChunks (chunksOf isSepC s) := by
  by_cases h : jsTrim s = []
  · rw [camelCaseStr]
    rw [if_pos h, chunksOf_nil_of_trim_nil isSepC hws_sep h]
    rfl
  · rw [camelCaseStr, if_neg h]
    have hfw : (splitRuns isSepC (jsTrim (collapseRuns isSepC (jsTrim s)))).filter
        (fun w => w ≠ []) = chunksOf isSepC s := by
      rw [splitRuns_filter_eq, chunksOf_jsTrim isSepC hws_sep,
          chunksOf_collapse_sep, chunksOf_jsTrim isSepC hws_sep]
    simp only [hfw]
    by_cases h2 : chunksOf isSepC s = []
    · rw [if_pos h2, h2]; rfl
    · rw [if_neg h2]; rfl

/-- `dotCase` is its formatter applied to the chunk decomposition of the
input. -/
theorem dotCaseStr_eq (s : List Char) :
    dotCaseStr s = dotFromChunks (chunksOf isSepC s) := by
  by_cases h : jsTrim s = []
  · rw [dotCaseStr]
    rw [if_pos h, chunksOf_nil_of_trim_nil isSepC hws_sep h]
    rfl
  · rw [dotCaseStr, if_neg h]
    have hfw : (splitRuns isSepC (jsTrim (collapseRuns isSepC (jsTrim s)))).filter
        (fun w => w ≠ []) = chunksOf isSepC s := by
      rw [splitRuns_filter_eq, chunksOf_jsTrim isSepC hws_sep,
          chunksOf_collapse_sep, chunksOf_jsTrim isSepC hws_sep]
    simp only [hfw]
    by_cases h2 : chunksOf isSepC s = []
    · rw [if_pos h2, h2]; rfl
    · rw [if_neg h2]; rfl

/-- Mapping a length-preserving function commutes with dropping empty
words. -/
theorem filter_map_lower (ws : List (List Char)) :
    ((ws.map (fun w => w.map jsToLower)).filter (fun w => w ≠ [])) =
      ((ws.filter (fun w => w ≠ [])).map (fun w => w.map jsToLower)) := by
  induction ws with
  | nil => rfl
  | cons w ws' ih =>
    by_cases h : w = []
    · subst h; simpa using ih
    · have h2 : w.map jsToLower ≠ [] := by simpa [List.map_eq_nil_iff] using h
      simp only [List.map_cons, List.filter_cons]
      rw [if_pos (by simpa using h2), if_pos (by simpa using h)]
      simp only [List.map_cons, ih]

/-- `toKebabCase` is its formatter applied to the chunk decomposition of
the boundary-annotated input. -/
theorem toKebabCaseStr_eq (s : List Char) :
    toKebabCaseStr s = kebabFromChunks (chunksOf isSepC (camelBoundary s)) := by
  rw [toKebabCaseStr]
  have h1 : ∀ x, chunksAux isWSC [] (collapseRunsAux isUHC false x) = chunksAux isSepC [] x := by
    intro x
    exact (chunksAux_collapse isWSC isUHC isSepC
      (fun c hc => by simp [isSepC, hc])
      (fun c hc => by simp [isSepC, isUHC] at hc ⊢; simp [hc])
      (by decide) x).1 []
  rw [filter_map_lower, splitRuns_filter_eq]
  rw [show chunksOf isWSC (collapseRuns isUHC (camelBoundary s)) =
      chunksOf isSepC (camelBoundary s) from h1 (camelBoundary s)]
  rfl

theorem isUpperC_not_lower {c : Char} (h : isUpperC c = true) : isLowerC c = false := by
  rw [Bool.eq_false_iff]; intro hc
  rw [isLowerC_iff] at hc; rw [isUpperC_iff] at h; omega

/-- A non-empty separator-free string is a single chunk. -/
theorem chunksOf_single_word (p : Char → Bool) {w : List Char} (hne : w ≠ [])
    (hw : ∀ c ∈ w, p c = false) : chunksOf p w = [w] := by
  rw [chunksOf, ← List.append_nil w, chunksAux_word p w hw [] [], List.append_nil, chunksAux,
      if_neg (by simpa using hne), List.reverse_reverse, List.append_nil]

/-- Two separator-free words around one separator are two chunks. -/
theorem chunksOf_two_words (p : Char → Bool) {w1 w2 : List Char} {c : Char}
    (h1 : w1 ≠ []) (h2 : w2 ≠ []) (hw1 : ∀ x ∈ w1, p x = false)
    (hw2 : ∀ x ∈ w2, p x = false) (hc : p c = true) :
    chunksOf p (w1 ++ c :: w2) = [w1, w2] := by
  rw [chunksOf, chunksAux_word p w1 hw1 [] (c :: w2), chunksAux, if_pos hc,
      if_neg (by simpa using h1), List.append_nil, List.reverse_reverse]
  rw [show chunksAux p [] w2 = chunksOf p w2 from rfl, chunksOf_single_word p h2 hw2]

/-! ### Claim theorems -/

/-- C1: the specification says the camel style lowercases the first word
in full.  The code only lowercases the first character of the first word
and preserves the remaining characters, so `camelCase("HELLO")` returns
`"hELLO"`.  The source file's own test table expects `"hello"` for this
input, so the code contradicts its own tests. -/
theorem claim_C1 : camelCase (.vstr (strL "HELLO")) = strL "hELLO" ∧
    camelCase (.vstr (strL "HELLO")) ≠ strL "hello" := by decide

/-- C3: the claim says every non-alphanumeric character is stripped from
every word for every style.  The camel and dot converters do strip, but
the claim's own example fails (`camelCase("user@name!")` is `"username"`,
not `"userName"`, because `@` is not a separator), and the kebab
converter strips nothing at all: `toKebabCase("user@name!")` keeps the
`@` and `!`, contradicting its own documentation comment. -/
theorem claim_C3 : camelCase (.vstr (strL "user@name!")) = strL "username" ∧
    toKebabCase (.vstr (strL "user@name!")) = strL "user@name!" ∧
    ('@' ∈ toKebabCase (.vstr (strL "user@name!"))) := by decide

/-- C10: `toCamelCase` in `src/refined_promot.js` has an empty body, so
it returns `undefined` for every input and never returns a string. -/
theorem claim_C10 : ∀ v : JSValue,
    toCamelCase v = JSValue.vundefined ∧ ∀ s, toCamelCase v ≠ JSValue.vstr s := by
  intro v
  exact ⟨rfl, fun s h => by cases h⟩

/-- C10 witness: the theorem applied at a concrete value. -/
theorem claim_C10_witness : toCamelCase (.vstr (strL "hello world")) = JSValue.vundefined :=
  (claim_C10 (.vstr (strL "hello world"))).1

/-- C2 counterexample: the claim asserts the lower-to-upper
case-boundary rule applies to the dot converter, which would make
`dotCase("firstName")` equal `"first.name"`.  The dot converter performs
no case-boundary splitting: it returns `"firstname"`. -/
theorem claim_C2_counterexample :
    dotCase (.vstr (strL "firstName")) = strL "firstname" ∧
    dotCase (.vstr (strL "firstName")) ≠ strL "first.name" := by decide

/-- C4 counterexample: the claim asserts `dotCase` is idempotent, but
`dotCase("hello world") = "hello.world"` while
`dotCase("hello.world") = "helloworld"`, because `.` is not a separator
and is stripped as a non-alphanumeric character on the second pass. -/
theorem claim_C4_counterexample :
    dotCase (.vstr (strL "hello world")) = strL "hello.world" ∧
    dotCase (.vstr (dotCase (.vstr (strL "hello world")))) = strL "helloworld" ∧
    dotCase (.vstr (dotCase (.vstr (strL "hello world")))) ≠
      dotCase (.vstr (strL "hello world")) := by decide

/-- C7: the spec-modelled `format` entry point rejects any style name
outside the enumerated set with an explicit invalid-argument failure and
only succeeds on enumerated styles; it never falls back to a default
style. -/
theorem claim_C7 : ∀ (ws : List (List Char)) (style : String),
    (style ∉ styleNames → formatWords ws style = .error "Invalid case style") ∧
    (∀ r, formatWords ws style = .ok r → style ∈ styleNames) := by
  intro ws style
  have key : style ∉ styleNames → formatWords ws style = .error "Invalid case style" := by
    intro h
    have h1 : ¬ style = "kebab" := by rintro rfl; exact h (by simp [styleNames])
    have h2 : ¬ style = "camel" := by rintro rfl; exact h (by simp [styleNames])
    have h3 : ¬ style = "pascal" := by rintro rfl; exact h (by simp [styleNames])
    have h4 : ¬ style = "snake" := by rintro rfl; exact h (by simp [styleNames])
    have h5 : ¬ style = "dot" := by rintro rfl; exact h (by simp [styleNames])
    rw [formatWords, if_neg h1, if_neg h2, if_neg h3, if_neg h4, if_neg h5]
  refine ⟨key, fun r hr => ?_⟩
  by_contra hmem
  rw [key hmem] at hr
  cases hr

/-- C7 witness: an unrecognized style name is rejected. -/
theorem claim_C7_witness : formatWords [strL "hello"] "bogus" = .error "Invalid case style" :=
  (claim_C7 [strL "hello"] "bogus").1 (by decide)

theorem jsTrim_of_all_ws {s : List Char} (h : ∀ c ∈ s, isWSC c = true) : jsTrim s = [] := by
  have hdrop : List.dropWhile isWSC s = [] := by
    rw [List.dropWhile_eq_nil_iff]
    intro x hx; simp [h x hx]
  rw [jsTrim, hdrop]; rfl

theorem isWSC_not_upper {c : Char} (h : isWSC c = true) : isUpperC c = false :=
  isSepC_not_upper (isWSC_isSepC h)

/-- C5: for each of the three converters, `null`, `undefined`, numbers,
booleans, the empty string and whitespace-only strings all produce the
empty string, and no failure is raised (the functions are total). -/
theorem claim_C5 :
    (∀ v : JSValue, isStringV v = false →
      toKebabCase v = [] ∧ camelCase v = [] ∧ dotCase v = []) ∧
    (toKebabCase (.vstr []) = [] ∧ camelCase (.vstr []) = [] ∧ dotCase (.vstr []) = []) ∧
    (∀ s : List Char, s.all isWSC = true →
      toKebabCase (.vstr s) = [] ∧ camelCase (.vstr s) = [] ∧ dotCase (.vstr s) = []) := by
  refine ⟨?_, ⟨by decide, by decide, by decide⟩, ?_⟩
  · intro v h
    cases v with
    | vstr s => simp [isStringV] at h
    | vnull => exact ⟨rfl, rfl, rfl⟩
    | vundefined => exact ⟨rfl, rfl, rfl⟩
    | vnum n => exact ⟨rfl, rfl, rfl⟩
    | vbool b => exact ⟨rfl, rfl, rfl⟩
  · intro s hall
    have hWS : ∀ c ∈ s, isWSC c = true := by simpa [List.all_eq_true] using hall
    have htrim : jsTrim s = [] := jsTrim_of_all_ws hWS
    refine ⟨?_, ?_, ?_⟩
    · show (if s = [] then [] else toKebabCaseStr s) = []
      by_cases hnil : s = []
      · rw [if_pos hnil]
      · rw [if_neg hnil, toKebabCaseStr_eq,
            camelBoundary_of_not_upper (fun c hc => isWSC_not_upper (hWS c hc)),
            show chunksOf isSepC s = [] from by
              rw [chunksOf, chunksAux_all_p isSepC s
                (fun c hc => isWSC_isSepC (hWS c hc)) []]; rfl]
        rfl
    · show camelCaseStr s = []
      rw [camelCaseStr, if_pos htrim]
    · show dotCaseStr s = []
      rw [dotCaseStr, if_pos htrim]

/-- C5 witness: the theorem applied at `null` and at a whitespace-only
string. -/
theorem claim_C5_witness :
    toKebabCase JSValue.vnull = [] ∧ camelCase (.vstr (strL "   ")) = [] :=
  ⟨(claim_C5.1 JSValue.vnull (by decide)).1,
   (claim_C5.2.2 (strL "   ") (by decide)).2.1⟩

/-- C8: the dot style lowercases all words and joins them with `.`:
`dotCase("hello world") = "hello.world"`; on every input the converter
is the dot formatter (clean, lowercase, join with `.`) applied to the
token sequence; and no character of any output is an uppercase ASCII
letter. -/
theorem claim_C8 :
    dotCase (.vstr (strL "hello world")) = strL "hello.world" ∧
    (∀ s : List Char, dotCaseStr s = dotFromChunks (chunksOf isSepC s)) ∧
    (∀ v : JSValue, (dotCase v).all (fun c => !(isUpperC c)) = true) := by
  refine ⟨by decide, dotCaseStr_eq, ?_⟩
  intro v
  cases v with
  | vstr s =>
    rw [List.all_eq_true]
    intro c hc
    have hc' : c ∈ dotFromChunks (chunksOf isSepC s) := by
      rw [← dotCaseStr_eq]; exact hc
    rw [dotFromChunks] at hc'
    rcases mem_joinWith ['.'] _ c hc' with h1 | ⟨w, hw, hcw⟩
    · have : c = '.' := by simpa using h1
      subst this; decide
    · rcases List.mem_map.mp (List.mem_of_mem_filter hw) with ⟨w', _, rfl⟩
      rcases List.mem_map.mp hcw with ⟨c0, _, rfl⟩
      simp [isUpperC_jsToLower]
  | vnull => rfl
  | vundefined => rfl
  | vnum n => rfl
  | vbool b => rfl

/-- C9: the camelCase implementation maps the first cleaned word `w` of
the input to `lowercase(w[0])` followed by the remaining characters of
`w` unchanged, so `camelCase("AlreadyCamelCase") = "alreadyCamelCase"`. -/
theorem claim_C9 :
    (∀ (s w : List Char) (ws : List (List Char)) (c : Char) (t : List Char),
      chunksOf isSepC s = w :: ws → w.filter isAlnumC = c :: t →
      ∃ rest, camelCase (.vstr s) = (jsToLower c :: t) ++ rest) ∧
    camelCase (.vstr (strL "AlreadyCamelCase")) = strL "alreadyCamelCase" := by
  refine ⟨?_, by decide⟩
  intro s w ws c t hchunks hfilter
  have hword : camelWordAt 0 w = jsToLower c :: t := by
    rw [camelWordAt, hfilter]; rfl
  refine ⟨joinWith [] ((mapWithIndex camelWordAt 1 ws).filter (fun x => x ≠ [])), ?_⟩
  show camelCaseStr s = _
  rw [camelCaseStr_eq, hchunks, camelFromChunks,
      show mapWithIndex camelWordAt 0 (w :: ws) =
        camelWordAt 0 w :: mapWithIndex camelWordAt 1 ws from rfl,
      hword, List.filter_cons, if_pos (by simp), joinWith_nil_sep_cons]

/-- C9 witness: the theorem applied at `"AlreadyCamelCase"`. -/
theorem claim_C9_witness :
    ∃ rest, camelCase (.vstr (strL "AlreadyCamelCase")) =
      (jsToLower 'A' :: strL "lreadyCamelCase") ++ rest :=
  claim_C9.1 (strL "AlreadyCamelCase") (strL "AlreadyCamelCase") [] 'A'
    (strL "lreadyCamelCase") (by decide) (by decide)

/-- C2 (amended): only the kebab converter inserts a word boundary at a
lowercase-to-uppercase transition, and only such transitions count (a
run of consecutive uppercase letters is kept as one word and merely
lowercased).  The camel and dot converters perform no case-boundary
splitting at all: on a single token `u ++ b :: t` (lowercase run, then
an uppercase letter, then a lowercase run) the dot converter lowercases
in place with no inserted `.`, and the camel converter returns the token
unchanged.  In particular `convert("firstName", "kebab") = "first-name"`. -/
theorem claim_C2 :
    (∀ (u : List Char) (b : Char) (t : List Char),
      u ≠ [] → (∀ c ∈ u, isLowerC c = true) → isUpperC b = true →
      (∀ c ∈ t, isLowerC c = true) →
      toKebabCase (.vstr (u ++ b :: t)) = u ++ '-' :: jsToLower b :: t ∧
      dotCase (.vstr (u ++ b :: t)) = u ++ jsToLower b :: t ∧
      camelCase (.vstr (u ++ b :: t)) = u ++ b :: t) ∧
    (∀ w : List Char, w ≠ [] → (∀ c ∈ w, isUpperC c = true) →
      toKebabCase (.vstr w) = w.map jsToLower) ∧
    toKebabCase (.vstr (strL "firstName")) = strL "first-name" := by
  refine ⟨?_, ?_, by decide⟩
  · intro u b t hu hlu hb hlt
    have hu_nosep : ∀ c ∈ u, isSepC c = false := fun c hc => isLowerC_not_sep (hlu c hc)
    have ht_fix : ∀ c ∈ t, jsToLower c = c := fun c hc => jsToLower_of_lower (hlt c hc)
    have hu_fix : ∀ c ∈ u, jsToLower c = c := fun c hc => jsToLower_of_lower (hlu c hc)
    have hbt_nosep : ∀ c ∈ (b :: t), isSepC c = false := by
      intro c hc
      rcases List.mem_cons.mp hc with rfl | hc'
      · exact isUpperC_not_sep hb
      · exact isLowerC_not_sep (hlt c hc')
    have hw_nosep : ∀ c ∈ (u ++ b :: t), isSepC c = false := by
      intro c hc
      rcases List.mem_append.mp hc with h | h
      · exact hu_nosep c h
      · exact hbt_nosep c h
    have hne : (u ++ b :: t) ≠ [] := by simp
    have ht_notup : ∀ c ∈ t, isUpperC c = false := fun c hc => isLowerC_not_upper (hlt c hc)
    have hsingle : chunksOf isSepC (u ++ b :: t) = [u ++ b :: t] :=
      chunksOf_single_word isSepC hne hw_nosep
    have halnum : ∀ c ∈ (u ++ b :: t), isAlnumC c = true := by
      intro c hc
      rcases List.mem_append.mp hc with h | h
      · exact isLowerC_alnum (hlu c h)
      · rcases List.mem_cons.mp h with rfl | h'
        · exact isUpperC_alnum hb
        · exact isLowerC_alnum (hlt c h')
    refine ⟨?_, ?_, ?_⟩
    · show (if (u ++ b :: t) = [] then [] else toKebabCaseStr (u ++ b :: t)) = _
      rw [if_neg hne, toKebabCaseStr_eq,
          camelBoundary_lower_upper u hu hlu b t hb ht_notup,
          show u ++ ' ' :: b :: t = u ++ ' ' :: (b :: t) from rfl,
          chunksOf_two_words isSepC hu (by simp) hu_nosep hbt_nosep (by decide),
          kebabFromChunks]
      rw [show ([u, b :: t] : List (List Char)).map (fun w => w.map jsToLower) =
          [u, jsToLower b :: t] from by
            simp only [List.map_cons, List.map_nil, map_id_of_fix u hu_fix,
              map_id_of_fix t ht_fix]]
      have hWne : ∀ x ∈ ([u, jsToLower b :: t] : List (List Char)), x ≠ [] := by
        intro x hx
        rcases List.mem_cons.mp hx with rfl | hx'
        · exact hu
        · rcases List.mem_cons.mp hx' with rfl | hx''
          · simp
          · simp at hx''
      have hWh : ∀ x ∈ ([u, jsToLower b :: t] : List (List Char)),
          ∀ c ∈ x, isHyphenC c = false := by
        intro x hx c hc
        rcases List.mem_cons.mp hx with rfl | hx'
        · exact isSepC_not_hyphen (hu_nosep c hc)
        · rcases List.mem_cons.mp hx' with rfl | hx''
          · rcases List.mem_cons.mp hc with rfl | hc'
            · exact isSepC_not_hyphen (isSepC_jsToLower (isUpperC_not_sep hb))
            · exact isSepC_not_hyphen (isLowerC_not_sep (hlt c hc'))
          · simp at hx''
      rw [dropEdgeHyphens_joinWith _ hWne hWh]
      show u ++ ['-'] ++ (jsToLower b :: t) = u ++ '-' :: jsToLower b :: t
      simp
    · show dotCaseStr (u ++ b :: t) = _
      rw [dotCaseStr_eq, hsingle, dotFromChunks]
      have hclean : (u ++ b :: t).filter isAlnumC = u ++ b :: t :=
        List.filter_eq_self.mpr halnum
      have hmapped : (u ++ b :: t).map jsToLower = u ++ jsToLower b :: t := by
        rw [List.map_append, map_id_of_fix u hu_fix, List.map_cons, map_id_of_fix t ht_fix]
      rw [show ([u ++ b :: t] : List (List Char)).map
            (fun w => (w.filter isAlnumC).map jsToLower) = [u ++ jsToLower b :: t] from by
          simp only [List.map_cons, List.map_nil, hclean, hmapped]]
      rw [List.filter_cons, if_pos (by simp), List.filter_nil]
      rfl
    · show camelCaseStr (u ++ b :: t) = _
      rw [camelCaseStr_eq, hsingle, camelFromChunks]
      have hword : camelWordAt 0 (u ++ b :: t) = u ++ b :: t := by
        cases u with
        | nil => exact absurd rfl hu
        | cons uh ut =>
          have hfix : jsToLower uh = uh := jsToLower_of_lower (hlu uh (by simp))
          have h1 : (uh :: (ut ++ b :: t)).filter isAlnumC = uh :: (ut ++ b :: t) := by
            apply List.filter_eq_self.mpr
            intro a ha
            exact halnum a (by simpa using ha)
          show camelWordAt 0 (uh :: (ut ++ b :: t)) = uh :: (ut ++ b :: t)
          rw [camelWordAt, h1]
          simp [hfix]
      rw [show mapWithIndex camelWordAt 0 [u ++ b :: t] =
          [camelWordAt 0 (u ++ b :: t)] from rfl, hword,
          List.filter_cons, if_pos (by simp), List.filter_nil]
      rfl
  · intro w hw hupp
    have hnolow : ∀ c ∈ w, isLowerC c = false := fun c hc => isUpperC_not_lower (hupp c hc)
    have hnosep : ∀ c ∈ w, isSepC c = false := fun c hc => isUpperC_not_sep (hupp c hc)
    show (if w = [] then [] else toKebabCaseStr w) = w.map jsToLower
    rw [if_neg hw, toKebabCaseStr_eq, camelBoundary_of_no_lower w hnolow,
        chunksOf_single_word isSepC hw hnosep, kebabFromChunks, List.map_cons, List.map_nil]
    have hWne : ∀ x ∈ ([w.map jsToLower] : List (List Char)), x ≠ [] := by
      intro x hx
      rcases List.mem_cons.mp hx with rfl | hx'
      · simpa [List.map_eq_nil_iff] using hw
      · simp at hx'
    have hWh : ∀ x ∈ ([w.map jsToLower] : List (List Char)),
        ∀ c ∈ x, isHyphenC c = false := by
      intro x hx c hc
      rcases List.mem_cons.mp hx with rfl | hx'
      · rcases List.mem_map.mp hc with ⟨c0, hc0, rfl⟩
        exact isSepC_not_hyphen (isSepC_jsToLower (hnosep c0 hc0))
      · simp at hx'
    rw [dropEdgeHyphens_joinWith _ hWne hWh]
    rfl

/-- C2 witness: the amended theorem applied at `"firstName"` split as
`"first" ++ 'N' :: "ame"` and at the uppercase run `"HTTP"`. -/
theorem claim_C2_witness :
    (toKebabCase (.vstr (strL "first" ++ 'N' :: strL "ame")) =
      strL "first" ++ '-' :: jsToLower 'N' :: strL "ame") ∧
    (dotCase (.vstr (strL "first" ++ 'N' :: strL "ame")) =
      strL "first" ++ jsToLower 'N' :: strL "ame") ∧
    toKebabCase (.vstr (strL "HTTP")) = (strL "HTTP").map jsToLower := by
  have h := claim_C2.1 (strL "first") 'N' (strL "ame")
    (by decide) (by decide) (by decide) (by decide)
  exact ⟨h.1, h.2.1, claim_C2.2.1 (strL "HTTP") (by decide) (by decide)⟩

/-- C6: for every context, replacing a non-empty mixed run of space,
hyphen and underscore characters by any single separator character does
not change the output of any of the three converters; in particular
`convert("  multiple   separators---here__", "camel") =
"multipleSeparatorsHere"`. -/
theorem claim_C6 :
    (∀ (u v rs : List Char) (c : Char), rs ≠ [] → (∀ x ∈ rs, isSepC x = true) →
      isSepC c = true →
      toKebabCase (.vstr (u ++ rs ++ v)) = toKebabCase (.vstr (u ++ c :: v)) ∧
      camelCase (.vstr (u ++ rs ++ v)) = camelCase (.vstr (u ++ c :: v)) ∧
      dotCase (.vstr (u ++ rs ++ v)) = dotCase (.vstr (u ++ c :: v))) ∧
    camelCase (.vstr (strL "  multiple   separators---here__")) =
      strL "multipleSeparatorsHere" := by
  refine ⟨?_, by decide⟩
  intro u v rs c hne hrs hc
  have hcs : ∀ x ∈ ([c] : List Char), isSepC x = true := by
    intro x hx; rcases List.mem_cons.mp hx with rfl | hx'
    · exact hc
    · simp at hx'
  have hne1 : u ++ rs ++ v ≠ [] := by
    intro h
    rcases List.append_eq_nil.mp h with ⟨h1, _⟩
    rcases List.append_eq_nil.mp h1 with ⟨_, h3⟩
    exact hne h3
  have hne2 : u ++ c :: v ≠ [] := by simp
  have hchunks : chunksOf isSepC (u ++ rs ++ v) = chunksOf isSepC (u ++ c :: v) := by
    have h := chunksAux_run_replace isSepC hne hrs hc u v []
    exact h
  refine ⟨?_, ?_, ?_⟩
  · show (if u ++ rs ++ v = [] then [] else toKebabCaseStr (u ++ rs ++ v)) =
      (if u ++ c :: v = [] then [] else toKebabCaseStr (u ++ c :: v))
    rw [if_neg hne1, if_neg hne2, toKebabCaseStr_eq, toKebabCaseStr_eq]
    rw [camelBoundary_sep_append hne hrs u v,
        show u ++ c :: v = u ++ [c] ++ v from by simp,
        @camelBoundary_sep_append [c] (by simp) hcs u v]
    rw [show camelBoundary u ++ [c] ++ camelBoundary v =
        camelBoundary u ++ c :: camelBoundary v from by simp]
    rw [show chunksOf isSepC (camelBoundary u ++ rs ++ camelBoundary v) =
        chunksOf isSepC (camelBoundary u ++ c :: camelBoundary v) from
      chunksAux_run_replace isSepC hne hrs hc (camelBoundary u) (camelBoundary v) []]
  · show camelCaseStr (u ++ rs ++ v) = camelCaseStr (u ++ c :: v)
    rw [camelCaseStr_eq, camelCaseStr_eq, hchunks]
  · show dotCaseStr (u ++ rs ++ v) = dotCaseStr (u ++ c :: v)
    rw [dotCaseStr_eq, dotCaseStr_eq, hchunks]

/-- C6 witness: the theorem applied with the run `"--"` against the
single separator `'-'`. -/
theorem claim_C6_witness :
    toKebabCase (.vstr (strL "a" ++ strL "--" ++ strL "b")) =
      toKebabCase (.vstr (strL "a" ++ '-' :: strL "b")) ∧
    camelCase (.vstr (strL "a" ++ strL "--" ++ strL "b")) =
      camelCase (.vstr (strL "a" ++ '-' :: strL "b")) := by
  have h := claim_C6.1 (strL "a") (strL "b") (strL "--") '-'
    (by decide) (by decide) (by decide)
  exact ⟨h.1, h.2.1⟩

/-- Chunking recovers the words of a hyphen-join of non-empty,
separator-free words. -/
theorem chunksOf_join_words :
    ∀ W : List (List Char), (∀ w ∈ W, w ≠ []) →
      (∀ w ∈ W, ∀ c ∈ w, isSepC c = false) →
      chunksOf isSepC (joinWith ['-'] W) = W := by
  intro W; induction W with
  | nil => intro _ _; rfl
  | cons w W' ih =>
    intro hne hch
    have hw : w ≠ [] := hne w (by simp)
    have hwch : ∀ c ∈ w, isSepC c = false := hch w (by simp)
    cases W' with
    | nil => exact chunksOf_single_word isSepC hw hwch
    | cons x W'' =>
      rw [joinWith_cons_of_ne ['-'] w (by simp),
          show w ++ ['-'] ++ joinWith ['-'] (x :: W'') =
            w ++ '-' :: joinWith ['-'] (x :: W'') from by simp]
      rw [chunksOf, chunksAux_word isSepC w hwch [] ('-' :: joinWith ['-'] (x :: W'')),
          chunksAux, if_pos (by decide), if_neg (by simpa using hw),
          List.append_nil, List.reverse_reverse]
      rw [show chunksAux isSepC [] (joinWith ['-'] (x :: W'')) =
          chunksOf isSepC (joinWith ['-'] (x :: W'')) from rfl]
      rw [ih (fun y hy => hne y (List.mem_cons_of_mem _ hy))
            (fun y hy => hch y (List.mem_cons_of_mem _ hy))]

/-- A hyphen-join of non-empty words whose characters are neither
separators nor uppercase is a fixed point of `toKebabCase`. -/
theorem kebab_normal_fixed (W : List (List Char)) (hWne : ∀ w ∈ W, w ≠ [])
    (hWch : ∀ w ∈ W, ∀ c ∈ w, isSepC c = false ∧ isUpperC c = false) :
    toKebabCase (.vstr (joinWith ['-'] W)) = joinWith ['-'] W := by
  cases W with
  | nil => rfl
  | cons w W' =>
    have hsep : ∀ y ∈ (w :: W'), ∀ c ∈ y, isSepC c = false :=
      fun y hy c hc => (hWch y hy c hc).1
    have hh : ∀ y ∈ (w :: W'), ∀ c ∈ y, isHyphenC c = false :=
      fun y hy c hc => isSepC_not_hyphen (hsep y hy c hc)
    have hone : joinWith ['-'] (w :: W') ≠ [] := by
      have hw : w ≠ [] := hWne w (by simp)
      cases W' with
      | nil => simpa [joinWith] using hw
      | cons x W'' =>
        rw [joinWith_cons_of_ne ['-'] w (by simp)]
        simp
    have hnoup : ∀ c ∈ joinWith ['-'] (w :: W'), isUpperC c = false := by
      intro c hc
      rcases mem_joinWith ['-'] (w :: W') c hc with h1 | ⟨y, hy, hcy⟩
      · have hc' : c = '-' := by simpa using h1
        subst hc'; decide
      · exact (hWch y hy c hcy).2
    have hfix : (w :: W').map (fun y => y.map jsToLower) = w :: W' := by
      apply map_id_of_fix
      intro y hy
      apply map_id_of_fix
      intro c hc
      exact jsToLower_of_not_upper (hWch y hy c hc).2
    show (if joinWith ['-'] (w :: W') = [] then []
      else toKebabCaseStr (joinWith ['-'] (w :: W'))) = joinWith ['-'] (w :: W')
    rw [if_neg hone, toKebabCaseStr_eq, camelBoundary_of_not_upper hnoup,
        chunksOf_join_words (w :: W') hWne hsep, kebabFromChunks, hfix,
        dropEdgeHyphens_joinWith (w :: W') hWne hh]

/-- C4 (amended): re-tokenizing already-formatted output and
reformatting reproduces it exactly for the kebab converter —
`toKebabCase` is idempotent on every input.  The camelCase and dotCase
converters are not idempotent: `camelCase("@@@ hello") = "Hello"` but
`camelCase("Hello") = "hello"`, and `dotCase("hello world") =
"hello.world"` but `dotCase("hello.world") = "helloworld"`. -/
theorem claim_C4 :
    (∀ s : List Char,
      toKebabCase (.vstr (toKebabCase (.vstr s))) = toKebabCase (.vstr s)) ∧
    camelCase (.vstr (camelCase (.vstr (strL "@@@ hello")))) ≠
      camelCase (.vstr (strL "@@@ hello")) ∧
    dotCase (.vstr (dotCase (.vstr (strL "hello world")))) ≠
      dotCase (.vstr (strL "hello world")) := by
  refine ⟨?_, by decide, by decide⟩
  intro s
  by_cases hs : s = []
  · subst hs; rfl
  · have hCHne : ∀ w ∈ chunksOf isSepC (camelBoundary s), w ≠ [] :=
      chunksOf_ne_nil isSepC (camelBoundary s)
    have hCHchars : ∀ w ∈ chunksOf isSepC (camelBoundary s), ∀ c ∈ w, isSepC c = false :=
      chunksOf_chars isSepC (camelBoundary s)
    have hWne : ∀ w ∈ (chunksOf isSepC (camelBoundary s)).map (fun y => y.map jsToLower),
        w ≠ [] := by
      intro w hw
      rcases List.mem_map.mp hw with ⟨w0, hw0, rfl⟩
      simpa [List.map_eq_nil_iff] using hCHne w0 hw0
    have hWch : ∀ w ∈ (chunksOf isSepC (camelBoundary s)).map (fun y => y.map jsToLower),
        ∀ c ∈ w, isSepC c = false ∧ isUpperC c = false := by
      intro w hw c hc
      rcases List.mem_map.mp hw with ⟨w0, hw0, rfl⟩
      rcases List.mem_map.mp hc with ⟨c0, hc0, rfl⟩
      exact ⟨isSepC_jsToLower (hCHchars w0 hw0 c0 hc0), isUpperC_jsToLower c0⟩
    have hWh : ∀ w ∈ (chunksOf isSepC (camelBoundary s)).map (fun y => y.map jsToLower),
        ∀ c ∈ w, isHyphenC c = false :=
      fun w hw c hc => isSepC_not_hyphen (hWch w hw c hc).1
    have step1 : toKebabCase (.vstr s) =
        joinWith ['-'] ((chunksOf isSepC (camelBoundary s)).map (fun y => y.map jsToLower)) := by
      show (if s = [] then [] else toKebabCaseStr s) = _
      rw [if_neg hs, toKebabCaseStr_eq, kebabFromChunks,
          dropEdgeHyphens_joinWith _ hWne hWh]
    rw [step1, kebab_normal_fixed _ hWne hWch]

/-- C4 witness: the idempotence equation applied at a concrete input. -/
theorem claim_C4_witness :
    toKebabCase (.vstr (toKebabCase (.vstr (strL "User ID")))) =
      toKebabCase (.vstr (strL "User ID")) :=
  claim_C4.1 (strL "User ID")

end CaseConv
